import Mathlib

/-!
Verification of the ToolSeek repository core: the incremental tag scanner
(`TagStreamer.feed` in `cli.py`) and the tool-loop orchestrator
(`event_stream` and `run_python` in `server.py`), shallowly embedded over
`List Char`.
-/

/-- The two tag vocabularies recognized by `TagStreamer._TAG_RX`
(`<(/?)(python|output)>`, case-insensitive). -/
inductive Region where
  | python
  | output
deriving DecidableEq, Repr

/-- A classified segment emitted by the scanner: the text together with the
region it was classified under (`None` for tag lines and plain reasoning). -/
abbrev Seg := List Char × Option Region

/-- ASCII lower-casing, as applied by `re.IGNORECASE` matching and
`name.lower()` on the ASCII tag names. -/
def lowerA (c : Char) : Char :=
  if 'A' ≤ c ∧ c ≤ 'Z' then Char.ofNat (c.toNat + 32) else c

/-- Strip a (lower-case) pattern from the front of a string, comparing
case-insensitively; returns the remainder on success. -/
def stripCaseless : List Char → List Char → Option (List Char)
  | [], s => some s
  | _ :: _, [] => none
  | p :: ps, c :: cs => if lowerA c = p then stripCaseless ps cs else none

/-- The characters of the tag name `python`. -/
def pyNameL : List Char := ("python".toList)

/-- The characters of the tag name `output`. -/
def outNameL : List Char := ("output".toList)

/-- Does `s` start with the given tag name (caselessly) followed by `>`? -/
def nameThen (nm : List Char) (s : List Char) : Bool :=
  match stripCaseless nm s with
  | some (c :: _) => c = '>'
  | _ => false

/-- Try to match `<(/?)(python|output)>` (case-insensitive) at the head of
`s`; on success returns (closing?, tag name, matched length): 8 characters
for an opening tag, 9 for a closing one. -/
def matchTagAt (s : List Char) : Option (Bool × Region × Nat) :=
  match s with
  | [] => none
  | c :: rest =>
    if c = '<' then
      match rest with
      | [] => none
      | d :: rest2 =>
        if d = '/' then
          if nameThen pyNameL rest2 then some (true, Region.python, 9)
          else if nameThen outNameL rest2 then some (true, Region.output, 9)
          else none
        else
          if nameThen pyNameL rest then some (false, Region.python, 8)
          else if nameThen outNameL rest then some (false, Region.output, 8)
          else none
    else none

/-- Leftmost search for a complete tag, as `_TAG_RX.search` does: returns
(text before the match, closing?, tag name, the matched tag text, rest). -/
def findTag : List Char → Option (List Char × Bool × Region × List Char × List Char)
  | [] => none
  | c :: cs =>
    match matchTagAt (c :: cs) with
    | some (cl, r, len) => some ([], cl, r, (c :: cs).take len, (c :: cs).drop len)
    | none =>
      match findTag cs with
      | some (b, cl, r, tg, rest) => some (c :: b, cl, r, tg, rest)
      | none => none

/-- Step 1 of `TagStreamer.feed`: repeatedly pull out all complete tags,
emitting the text before each tag under the current region, the tag itself
as neutral, and flipping the active region.  The fuel argument bounds the
number of loop iterations; `extractTags` below supplies `buf.length`, which
is never reached because every iteration consumes a nonempty tag. -/
def extractTagsF : Nat → List Char → Option Region → List Seg × List Char × Option Region
  | 0, buf, a => ([], buf, a)
  | fuel + 1, buf, a =>
    match findTag buf with
    | none => ([], buf, a)
    | some (before, closing, nm, tg, rest) =>
      let newA : Option Region := if closing then none else some nm
      let r := extractTagsF fuel rest newA
      ((if before = [] then [] else [(before, a)]) ++ (tg, (none : Option Region)) :: r.1,
        r.2.1, r.2.2)

/-- The complete-tag extraction loop of `TagStreamer.feed`. -/
def extractTags (buf : List Char) (a : Option Region) : List Seg × List Char × Option Region :=
  extractTagsF buf.length buf a

/-- The character class `[\/A-Za-z]`: characters that may begin a tag name
after `<`. -/
def tagStartChar (c : Char) : Bool :=
  c = '/' || ('A' ≤ c && c ≤ 'Z') || ('a' ≤ c && c ≤ 'z')

/-- Step 2 of `TagStreamer.feed`, the safe-flush rule: if the remaining
buffer has no `<`, flush it all; if the first `<` is last or is followed by
a character that cannot begin a tag name, flush the whole buffer; otherwise
flush the text before the `<` and keep from the `<` onward buffered. -/
def safeFlush (buf : List Char) (a : Option Region) : List Seg × List Char :=
  if buf = [] then ([], [])
  else
    match buf.dropWhile (fun c => c != '<') with
    | [] => ([(buf, a)], [])
    | _ :: tail =>
      match tail with
      | [] => ([(buf, a)], [])
      | d :: _ =>
        if tagStartChar d then
          ((if buf.takeWhile (fun c => c != '<') = [] then []
            else [(buf.takeWhile (fun c => c != '<'), a)]),
           buf.dropWhile (fun c => c != '<'))
        else ([(buf, a)], [])

/-- The scanner state of one `TagStreamer`: the pending buffer and the
currently active region. -/
structure ScanState where
  buf : List Char
  active : Option Region
deriving DecidableEq, Repr

/-- `TagStreamer.feed`: append the chunk to the buffer, extract all complete
tags, then apply the safe-flush rule to the remainder. -/
def feed (st : ScanState) (chunk : List Char) : ScanState × List Seg :=
  let r := extractTags (st.buf ++ chunk) st.active
  let f := safeFlush r.2.1 r.2.2
  (⟨f.2, r.2.2⟩, r.1 ++ f.1)

/-- Feed a sequence of chunks to the scanner, concatenating all emissions. -/
def feedAll (st : ScanState) : List (List Char) → ScanState × List Seg
  | [] => (st, [])
  | c :: cs =>
    let r1 := feed st c
    let r2 := feedAll r1.1 cs
    (r2.1, r1.2 ++ r2.2)

/-- Concatenation of the texts of a list of emitted segments. -/
def segsText : List Seg → List Char
  | [] => []
  | s :: l => s.1 ++ segsText l

/-- The character-by-character classification determined by a list of
emitted segments: each emitted character paired with its region. -/
def charClasses : List Seg → List (Char × Option Region)
  | [] => []
  | s :: l => (s.1.map (fun c => (c, s.2))) ++ charClasses l

/-! ## Orchestrator (`event_stream` in `server.py`) -/

/-- The literal `"</python>"`. -/
def pyClose : List Char := ("</python>".toList)

/-- The literal `"<python>"`. -/
def pyOpen : List Char := ("<python>".toList)

/-- The literal `"<python>\n"` injected as the synthetic first delta. -/
def pyOpenNl : List Char := ("<python>\n".toList)

/-- The literal `"</think>"`. -/
def thinkClose : List Char := ("</think>".toList)

/-- The literal `"</think"` whose prefixes are held back. -/
def thinkHold : List Char := ("</think".toList)

/-- The literal `"\n<output>\n"` opening an execution-output block. -/
def outOpen : List Char := ("\n<output>\n".toList)

/-- The literal `"\n</output>"` closing an execution-output block. -/
def outClose : List Char := ("\n</output>".toList)

/-- Substring containment, as Python's `pat in s`. -/
def hasSub (pat : List Char) : List Char → Bool
  | [] => pat.isEmpty
  | c :: rest => pat.isPrefixOf (c :: rest) || hasSub pat rest

/-- Text before the first occurrence of `pat` in `s` (the whole of `s` when
there is none), as `s.split(pat, 1)[0]`. -/
def splitBeforeFirst (pat : List Char) : List Char → List Char
  | [] => []
  | c :: cs => if pat.isPrefixOf (c :: cs) then [] else c :: splitBeforeFirst pat cs

/-- Start index of the last occurrence of `pat` in `s`, as `s.rindex(pat)`;
`none` when `pat` does not occur. -/
def lastStart (pat : List Char) (s : List Char) : Option Nat :=
  ((List.range (s.length + 1)).filter (fun i => pat.isPrefixOf (s.drop i))).getLast?

/-- The smallest `i` in `1..7` such that the buffer ends with `"</think"[:i]`,
mirroring the `for i in range(1, len("</think") + 1)` scans; `none` when the
buffer ends with no proper partial of the end-of-reasoning marker. -/
def thinkHoldLen (b : List Char) : Option Nat :=
  (List.range 7).findSome? (fun k =>
    if (thinkHold.take (k + 1)).isSuffixOf b then some (k + 1) else none)

/-- Turn-level orchestrator state: the continuation text sent upstream, the
thinking flag, and the one-shot synthetic-code-open flag. -/
structure TS where
  prefx : List Char
  isThinking : Bool
  startWithCode : Bool
deriving DecidableEq, Repr

/-- Per-sub-request state of `event_stream`: the accumulated model text,
the text already delivered to the client in this sub-request, and the text
held back because of a partial `"</think"` suffix. -/
structure SS where
  buffer : List Char
  alreadySent : List Char
  maybeSend : List Char
deriving DecidableEq, Repr

/-- An event yielded to the downstream client. -/
inductive Ev where
  | reasoning (t : List Char)
  | raw (c : Option (List Char))
  | err (m : List Char)
  | done
deriving DecidableEq, Repr

/-- Loop control after processing one upstream chunk. -/
inductive Ctl where
  | next
  | restart
deriving DecidableEq, Repr

/-- The guarded send used at every emission point of the thinking loop:
if `text_to_yield.startswith(already_sent)`, yield the new suffix and extend
`already_sent` and `prefix` by it; returns (new already_sent, new prefix,
yielded events). -/
def guardedSend (sent pfx t : List Char) : List Char × List Char × List Ev :=
  if sent.isPrefixOf t then
    let nc := t.drop sent.length
    if nc = [] then (sent, pfx, [])
    else (sent ++ nc, pfx ++ nc, [Ev.reasoning nc])
  else (sent, pfx, [])

/-- The `"</python>" in buffer` branch of `event_stream`: yield new text up
to and including the closing marker, then look for the last complete
`<python>…</python>` block, execute it, append and yield the formatted
output block, and restart; when no complete block is found, keep
streaming. -/
def branchA (exec : List Char → List Char) (ts : TS) (ss : SS) (buffer : List Char) :
    TS × SS × List Ev × Ctl :=
  let t := splitBeforeFirst pyClose buffer ++ pyClose
  let g := guardedSend ss.alreadySent ts.prefx t
  match lastStart pyOpen buffer, lastStart pyClose buffer with
  | some i, some j =>
    if j < i then
      (⟨g.2.1, ts.isThinking, ts.startWithCode⟩, ⟨buffer, g.1, ss.maybeSend⟩, g.2.2, Ctl.next)
    else
      let code := (buffer.drop (i + pyOpen.length)).take (j - (i + pyOpen.length))
      let fo := outOpen ++ exec code ++ outClose
      (⟨g.2.1 ++ fo, ts.isThinking, ts.startWithCode⟩, ⟨buffer, g.1 ++ fo, ss.maybeSend⟩,
        g.2.2 ++ [Ev.reasoning fo], Ctl.restart)
  | _, _ =>
    (⟨g.2.1, ts.isThinking, ts.startWithCode⟩, ⟨buffer, g.1, ss.maybeSend⟩, g.2.2, Ctl.next)

/-- The partial-`"</think"` branch: yield text strictly before the partial
marker, then hold the whole incoming delta in `maybe_send`. -/
def branchHold (ts : TS) (ss : SS) (buffer text : List Char) (i : Nat) :
    TS × SS × List Ev × Ctl :=
  let t := buffer.take (buffer.length - i)
  let g := guardedSend ss.alreadySent ts.prefx t
  (⟨g.2.1, ts.isThinking, ts.startWithCode⟩, ⟨buffer, g.1, ss.maybeSend ++ text⟩, g.2.2, Ctl.next)

/-- The `"</think>" in buffer` branch: yield text before the marker, close
the thinking section, extend the continuation text, and restart. -/
def branchThink (ts : TS) (ss : SS) (buffer : List Char) : TS × SS × List Ev × Ctl :=
  let t := splitBeforeFirst thinkClose buffer
  let g := guardedSend ss.alreadySent ts.prefx t
  (⟨g.2.1 ++ t ++ thinkClose ++ ('\n' :: []), false, ts.startWithCode⟩,
    ⟨buffer, g.1, ss.maybeSend⟩, g.2.2, Ctl.restart)

/-- The plain-text branch: flush any held-back text, then forward the whole
incoming delta unconditionally. -/
def branchElse (ts : TS) (ss : SS) (buffer text : List Char) : TS × SS × List Ev × Ctl :=
  let flushEvs := if ss.maybeSend = [] then [] else [Ev.reasoning ss.maybeSend]
  (⟨ts.prefx ++ ss.maybeSend ++ text, ts.isThinking, ts.startWithCode⟩,
    ⟨buffer, ss.alreadySent ++ ss.maybeSend ++ text, []⟩,
    flushEvs ++ [Ev.reasoning text], Ctl.next)

/-- Processing of one upstream chunk after the synthetic-injection step:
forward verbatim when no longer thinking, otherwise append the content to
the buffer and dispatch on the tag-detection branches in source order. -/
def processCore (exec : List Char → List Char) (ts : TS) (ss : SS) (ch : Option (List Char)) :
    TS × SS × List Ev × Ctl :=
  if ts.isThinking = false then (ts, ss, [Ev.raw ch], Ctl.next)
  else
    match ch with
    | none => (ts, ss, [], Ctl.next)
    | some text =>
      if text = [] then (ts, ss, [], Ctl.next)
      else
        let buffer := ss.buffer ++ text
        if hasSub pyClose buffer then branchA exec ts ss buffer
        else
          match thinkHoldLen buffer with
          | some i => branchHold ts ss buffer text i
          | none =>
            if hasSub thinkClose buffer then branchThink ts ss buffer
            else branchElse ts ss buffer text

/-- The `start_with_code` injection performed on receipt of a chunk: emit a
synthetic `"<python>\n"` reasoning delta once, seeding `buffer` and
`already_sent` with it and clearing the flag. -/
def applySWC (ts : TS) (ss : SS) : TS × SS × List Ev :=
  if ts.startWithCode then
    (⟨ts.prefx, ts.isThinking, false⟩, ⟨pyOpenNl, pyOpenNl, ss.maybeSend⟩,
      [Ev.reasoning pyOpenNl])
  else (ts, ss, [])

/-- Full processing of one upstream chunk by `event_stream`'s inner loop. -/
def processChunk (exec : List Char → List Char) (ts : TS) (ss : SS) (ch : Option (List Char)) :
    TS × SS × List Ev × Ctl :=
  let s0 := applySWC ts ss
  let r := processCore exec s0.1 s0.2.1 ch
  (r.1, r.2.1, s0.2.2 ++ r.2.2.1, r.2.2.2)

/-- Run one upstream sub-request: process its chunks in order, stopping
early when a branch requests a restart; returns the final states, all
yielded events, and whether the sub-request ended in a restart. -/
def runSub (exec : List Char → List Char) (ts : TS) (ss : SS) :
    List (Option (List Char)) → TS × SS × List Ev × Bool
  | [] => (ts, ss, [], false)
  | ch :: rest =>
    let r := processChunk exec ts ss ch
    match r.2.2.2 with
    | Ctl.restart => (r.1, r.2.1, r.2.2.1, true)
    | Ctl.next =>
      let k := runSub exec r.1 r.2.1 rest
      (k.1, k.2.1, r.2.2.1 ++ k.2.2.1, k.2.2.2)

/-- One scripted upstream sub-request: the chunks the upstream delivered,
and, when the request raised, the error message observed after them. -/
abbrev SubScript := List (Option (List Char)) × Option (List Char)

/-- The tool loop of `event_stream`: each iteration issues one upstream
sub-request (scripted by the next list entry) with a fresh per-sub-request
state.  On restart the loop re-issues; on an upstream error it yields one
error delta and the terminal sentinel and stops; on natural completion it
yields the sentinel and iterates again, as the `while True` in the source
does. -/
def runTurn (exec : List Char → List Char) (ts : TS) : List SubScript → List Ev
  | [] => []
  | (chunks, errAfter) :: rest =>
    let r := runSub exec ts ⟨[], [], []⟩ chunks
    if r.2.2.2 then r.2.2.1 ++ runTurn exec r.1 rest
    else
      match errAfter with
      | some m => r.2.2.1 ++ [Ev.err m, Ev.done]
      | none => r.2.2.1 ++ [Ev.done] ++ runTurn exec r.1 rest

/-- Events that forward model or execution text (not control events). -/
def isOut : Ev → Bool
  | Ev.reasoning _ => true
  | Ev.raw _ => true
  | Ev.err _ => false
  | Ev.done => false

/-- Concatenation of all reasoning text forwarded by a list of events. -/
def evJoin : List Ev → List Char
  | [] => []
  | Ev.reasoning t :: rest => t ++ evJoin rest
  | _ :: rest => evJoin rest

/-! ## Execution adapter (`run_python` in `server.py`) -/

/-- Characters stripped by Python's `str.rstrip()`. -/
def pyWs (c : Char) : Bool :=
  c = ' ' || c = '\t' || c = '\n' || c = '\r' || c = '\x0b' || c = '\x0c'

/-- Python's `s.rstrip()`. -/
def rstrip (s : List Char) : List Char :=
  (s.reverse.dropWhile pyWs).reverse

/-- The fixed placeholder returned for genuinely empty output. -/
def noOutput : List Char := ("(no output)".toList)

/-- Outcome of handing the source text to the Python interpreter under
`redirect_stdout`: `eval` succeeded (with the text printed and, when the
value was not `None`, its `repr`), `eval` raised a non-syntax fault after
printing some text (with the formatted trace that `traceback.print_exc`
writes), or `eval` raised `SyntaxError` and `exec` ran (printing text and
possibly raising with a formatted trace). -/
inductive PyRun where
  | evalOk (printed : List Char) (resRepr : Option (List Char))
  | evalRaised (printed : List Char) (trace : List Char)
  | syntaxThenExec (printed : List Char) (trace : Option (List Char))
deriving DecidableEq, Repr

/-- Everything written to the capture buffer `buf` by the time control
reaches the `return`: the try/except structure of `run_python` appends the
formatted failure trace to whatever was printed instead of propagating. -/
def captured : PyRun → List Char
  | PyRun.evalOk p none => p
  | PyRun.evalOk p (some r) => p ++ r ++ ('\n' :: [])
  | PyRun.evalRaised p t => p ++ t
  | PyRun.syntaxThenExec p none => p
  | PyRun.syntaxThenExec p (some t) => p ++ t

/-- `run_python`: `buf.getvalue().rstrip() or "(no output)"`. -/
def run_python (r : PyRun) : List Char :=
  let c := rstrip (captured r)
  if c = [] then noOutput else c

/-- Modelled from the spec: the outcome CPython produces for `eval("1/0")`
under the adapter — the expression raises `ZeroDivisionError` before
printing anything, and `traceback.print_exc` writes a non-empty formatted
trace.  The exact trace text lives in the Python runtime, outside this
repository; a representative trace is used here as `zdTrace`. -/
def zdTrace : List Char :=
  ("Traceback (most recent call last):\n  File \"<string>\", line 1, in <module>\nZeroDivisionError: division by zero".toList)

/-- Modelled from the spec: evaluating `1/0` raises with no prior printed
output, so the adapter observes the `evalRaised` outcome with `zdTrace`. -/
def divZeroRun : PyRun := PyRun.evalRaised [] zdTrace

/-- The execution oracle a turn uses when every executed block is `1/0`:
each invocation returns what `run_python` produces for that fault. -/
def execDiv : List Char → List Char := fun _ => run_python divZeroRun

/-! ## Request validation (`chat_completions` in `server.py`) -/

/-- A JSON value, the result of `request.json()`. -/
inductive JVal where
  | null
  | jb (b : Bool)
  | jn (n : Int)
  | js (s : List Char)
  | jarr (xs : List JVal)
  | jobj (kvs : List (List Char × JVal))

/-- An HTTP error response (`HTTPException` or an unhandled fault turned
into a 500 by the framework). -/
structure HttpErr where
  status : Nat
  detail : List Char
deriving DecidableEq, Repr

/-- Python dict lookup with JSON semantics (later duplicate keys win, as in
`json.loads`). -/
def jlookup (kvs : List (List Char × JVal)) (k : List Char) : Option JVal :=
  kvs.foldl (fun acc kv => if kv.1 = k then some kv.2 else acc) none

/-- `v.get(k)`: on a non-dict value Python raises `AttributeError`, which
the framework surfaces as a 500 error. -/
def dictGet (v : JVal) (k : List Char) : Except HttpErr (Option JVal) :=
  match v with
  | JVal.jobj kvs => Except.ok (jlookup kvs k)
  | _ => Except.error ⟨500, ("AttributeError".toList)⟩

/-- `v[k]` subscripting: missing key or non-dict raises, surfaced as 500. -/
def getItem (v : JVal) (k : List Char) : Except HttpErr JVal :=
  match v with
  | JVal.jobj kvs =>
    match jlookup kvs k with
    | some x => Except.ok x
    | none => Except.error ⟨500, ("KeyError".toList)⟩
  | _ => Except.error ⟨500, ("TypeError".toList)⟩

/-- `messages[-1]`: empty list raises `IndexError`, surfaced as 500. -/
def lastMsg (xs : List JVal) : Except HttpErr JVal :=
  match xs.getLast? with
  | some x => Except.ok x
  | none => Except.error ⟨500, ("IndexError".toList)⟩

/-- Python truthiness of a JSON value. -/
def truthy : JVal → Bool
  | JVal.null => false
  | JVal.jb b => b
  | JVal.jn n => !(n == 0)
  | JVal.js s => !s.isEmpty
  | JVal.jarr xs => !xs.isEmpty
  | JVal.jobj kvs => !kvs.isEmpty

/-- The `for m in messages` loop rejecting system messages with a 400. -/
def checkNoSystem : List JVal → Except HttpErr Unit
  | [] => Except.ok ()
  | m :: rest => do
    let role? ← dictGet m ("role".toList)
    let isSys := match role? with | some (JVal.js s) => s == ("system".toList) | _ => false
    if isSys then Except.error ⟨400, ("system messages are currently not supported".toList)⟩
    else checkNoSystem rest

/-- The data the handler has assembled by the time it issues the upstream
request: the retained leading messages and the final user content spliced
into the synthesized instruction message.  Producing this value is the
point after which the upstream call and streaming begin. -/
structure UpstreamCall where
  heldMessages : List JVal
  lastContent : JVal

/-- The continuation of the handler after reading the `messages` field:
reject a missing or non-list value with a 400, then run the system-message
scan, the streaming-only check, and the construction of the injected
upstream request in source order. -/
def chatAfterMessages (body : JVal) (msgs? : Option JVal) : Except HttpErr UpstreamCall :=
  match msgs? with
  | some (JVal.jarr ms) => do
    checkNoSystem ms
    let stream? ← dictGet body ("stream".toList)
    let streamVal := match stream? with | some v => v | none => JVal.jb false
    if truthy streamVal = false then
      Except.error ⟨400, ("only streaming is currently supported".toList)⟩
    else do
      let lastM ← lastMsg ms
      let content ← getItem lastM ("content".toList)
      Except.ok ⟨ms.dropLast, content⟩
  | _ => Except.error ⟨400, ("messages field must be a list".toList)⟩

/-- `chat_completions`: parse failure (`body? = none`) is rejected with a
400 before anything else; otherwise the `messages` field is read and
handed to `chatAfterMessages`.  Every `Except.error` result means no
upstream sub-request is issued and no output delta is emitted — the
upstream call exists only behind an `Except.ok` value. -/
def chat_completions (body? : Option JVal) : Except HttpErr UpstreamCall :=
  match body? with
  | none => Except.error ⟨400, ("Invalid JSON".toList)⟩
  | some body => do
    let msgs? ← dictGet body ("messages".toList)
    chatAfterMessages body msgs?

/-- Whether a JSON body has a `messages` field holding a list. -/
def messagesFieldIsList (b : JVal) : Bool :=
  match b with
  | JVal.jobj kvs =>
    match jlookup kvs ("messages".toList) with
    | some (JVal.jarr _) => true
    | _ => false
  | _ => false

/-! ## Concrete inputs used by counterexamples and witnesses -/

/-- An execution oracle that is never consulted by the scenarios below. -/
def exec0 : List Char → List Char := fun _ => []

/-! ## Basic lemmas about emitted segments -/

theorem segsText_append (l1 l2 : List Seg) :
    segsText (l1 ++ l2) = segsText l1 ++ segsText l2 := by
  induction l1 with
  | nil => rfl
  | cons s l ih => simp [segsText, ih]

theorem charClasses_append (l1 l2 : List Seg) :
    charClasses (l1 ++ l2) = charClasses l1 ++ charClasses l2 := by
  induction l1 with
  | nil => rfl
  | cons s l ih => simp [charClasses, ih]

/-! ## Conservation of the tag-extraction loop -/

theorem matchTagAt_pos {s : List Char} {cl : Bool} {r : Region} {len : Nat}
    (h : matchTagAt s = some (cl, r, len)) : 0 < len := by
  rcases s with _ | ⟨c, rest⟩
  · simp [matchTagAt] at h
  · rcases rest with _ | ⟨d, rest2⟩
    · simp only [matchTagAt] at h
      split_ifs at h
    · simp only [matchTagAt] at h
      split_ifs at h <;> (try simp at h) <;> (try (obtain ⟨h1, h2, h3⟩ := h; omega))

theorem findTag_decomp :
    ∀ {s b : List Char} {cl : Bool} {r : Region} {tg rest : List Char},
      findTag s = some (b, cl, r, tg, rest) → s = b ++ tg ++ rest ∧ tg ≠ [] := by
  intro s
  induction s with
  | nil => intro b cl r tg rest h; simp [findTag] at h
  | cons c cs ih =>
    intro b cl r tg rest h
    unfold findTag at h
    cases hm : matchTagAt (c :: cs) with
    | some x =>
      obtain ⟨cl', r', len⟩ := x
      rw [hm] at h
      simp only [Option.some.injEq, Prod.mk.injEq] at h
      obtain ⟨hb, hcl, hr, htg, hrest⟩ := h
      subst hb; subst hcl; subst hr; subst htg; subst hrest
      refine ⟨by simp [List.take_append_drop], ?_⟩
      have hp := matchTagAt_pos hm
      intro hcon
      rw [List.take_eq_nil_iff] at hcon
      rcases hcon with h1 | h1
      · omega
      · simp at h1
    | none =>
      rw [hm] at h
      cases hf : findTag cs with
      | none => rw [hf] at h; simp at h
      | some y =>
        obtain ⟨b', cl', r', tg', rest'⟩ := y
        rw [hf] at h
        simp only [Option.some.injEq, Prod.mk.injEq] at h
        obtain ⟨hb, hcl, hr, htg, hrest⟩ := h
        subst hb; subst hcl; subst hr; subst htg; subst hrest
        obtain ⟨hdec, hne⟩ := ih hf
        exact ⟨by rw [List.cons_append, List.cons_append, ← hdec], hne⟩

theorem findTag_rest_lt {s b tg rest : List Char} {cl : Bool} {r : Region}
    (h : findTag s = some (b, cl, r, tg, rest)) : rest.length < s.length := by
  obtain ⟨hd, hne⟩ := findTag_decomp h
  subst hd
  cases tg with
  | nil => exact absurd rfl hne
  | cons x xs => simp [List.length_append]; omega

theorem extractTagsF_nil (fuel : Nat) (a : Option Region) :
    extractTagsF fuel [] a = ([], [], a) := by
  cases fuel <;> simp [extractTagsF, findTag]

/-- The fuel supplied by `extractTags` is always sufficient: any two fuels
at least the buffer length give the same result, so the bounded loop agrees
with the unbounded `while True` of the source. -/
theorem extractTagsF_ext :
    ∀ (n : Nat) (buf : List Char), buf.length ≤ n →
      ∀ (f1 f2 : Nat), buf.length ≤ f1 → buf.length ≤ f2 →
      ∀ (a : Option Region), extractTagsF f1 buf a = extractTagsF f2 buf a := by
  intro n
  induction n with
  | zero =>
    intro buf hb f1 f2 _ _ a
    have : buf = [] := List.length_eq_zero.mp (Nat.le_zero.mp hb)
    subst this
    rw [extractTagsF_nil, extractTagsF_nil]
  | succ n ih =>
    intro buf hb f1 f2 h1 h2 a
    cases buf with
    | nil => rw [extractTagsF_nil, extractTagsF_nil]
    | cons c cs =>
      simp only [List.length_cons] at hb h1 h2
      cases f1 with
      | zero => omega
      | succ m1 =>
        cases f2 with
        | zero => omega
        | succ m2 =>
          unfold extractTagsF
          cases hf : findTag (c :: cs) with
          | none => rfl
          | some x =>
            obtain ⟨b, cl, r, tg, rest⟩ := x
            have hrest : rest.length < (c :: cs).length := findTag_rest_lt hf
            simp only [List.length_cons] at hrest
            have hrec : extractTagsF m1 rest (if cl then none else some r) =
                extractTagsF m2 rest (if cl then none else some r) :=
              ih rest (by omega) m1 m2 (by omega) (by omega) _
            simp only [hrec]

theorem extractTagsF_conserv (fuel : Nat) :
    ∀ (buf : List Char) (a : Option Region),
      segsText (extractTagsF fuel buf a).1 ++ (extractTagsF fuel buf a).2.1 = buf := by
  induction fuel with
  | zero => intro buf a; simp [extractTagsF, segsText]
  | succ n ih =>
    intro buf a
    unfold extractTagsF
    cases hf : findTag buf with
    | none => simp [segsText]
    | some x =>
      obtain ⟨b, cl, r, tg, rest⟩ := x
      obtain ⟨hd, -⟩ := findTag_decomp hf
      have hrec := ih rest (if cl then none else some r)
      subst hd
      cases b with
      | nil => simp [segsText, segsText_append, List.append_assoc, hrec]
      | cons y ys => simp [segsText, segsText_append, List.append_assoc, hrec]

theorem extractTags_conserv (buf : List Char) (a : Option Region) :
    segsText (extractTags buf a).1 ++ (extractTags buf a).2.1 = buf :=
  extractTagsF_conserv buf.length buf a

theorem safeFlush_conserv (buf : List Char) (a : Option Region) :
    segsText (safeFlush buf a).1 ++ (safeFlush buf a).2 = buf := by
  have hsplit := List.takeWhile_append_dropWhile (fun c => c != '<') buf
  unfold safeFlush
  by_cases hbe : buf = []
  · subst hbe; simp [segsText]
  · rw [if_neg hbe]
    rcases hdw : buf.dropWhile (fun c => c != '<') with _ | ⟨x, _ | ⟨d, t2⟩⟩
    · simp [segsText]
    · simp [segsText]
    · by_cases hts : tagStartChar d = true
      · simp only [hts, if_true]
        by_cases htw : buf.takeWhile (fun c => c != '<') = []
        · rw [if_pos htw]
          simp only [segsText, List.nil_append]
          rw [← hsplit, htw, hdw, List.nil_append]
        · rw [if_neg htw]
          simp only [segsText, List.append_nil]
          conv_rhs => rw [← hsplit, hdw]
      · simp only [Bool.not_eq_true] at hts
        simp [hts, segsText]

theorem feed_conserv (st : ScanState) (chunk : List Char) :
    segsText (feed st chunk).2 ++ (feed st chunk).1.buf = st.buf ++ chunk := by
  show segsText ((extractTags (st.buf ++ chunk) st.active).1 ++
      (safeFlush (extractTags (st.buf ++ chunk) st.active).2.1
        (extractTags (st.buf ++ chunk) st.active).2.2).1) ++
      (safeFlush (extractTags (st.buf ++ chunk) st.active).2.1
        (extractTags (st.buf ++ chunk) st.active).2.2).2 = st.buf ++ chunk
  rw [segsText_append, List.append_assoc, safeFlush_conserv]
  exact extractTags_conserv (st.buf ++ chunk) st.active

/-- C5: Scanner conservation invariant — for every `TagStreamer` state and
every sequence of `feed` calls, the concatenation of all emitted segment
texts (tag events included) followed by the remaining internal buffer
equals the prior buffer plus the concatenation of all chunks fed; for a
fresh streamer (`buf = []`) this is exactly: nothing is lost or duplicated. -/
theorem scanner_conservation (st : ScanState) (chunks : List (List Char)) :
    segsText (feedAll st chunks).2 ++ (feedAll st chunks).1.buf =
      st.buf ++ chunks.flatten := by
  induction chunks generalizing st with
  | nil => simp [feedAll, segsText]
  | cons c cs ih =>
    show segsText ((feed st c).2 ++ (feedAll (feed st c).1 cs).2) ++
        (feedAll (feed st c).1 cs).1.buf = st.buf ++ (c :: cs).flatten
    rw [segsText_append, List.append_assoc, ih, ← List.append_assoc, feed_conserv,
      List.flatten_cons, List.append_assoc]

/-! ## The scanner on marker-free text, and the safe-flush characterization -/

theorem matchTagAt_none_of_ne {c : Char} (cs : List Char) (hc : c ≠ '<') :
    matchTagAt (c :: cs) = none := by
  simp [matchTagAt, hc]

theorem findTag_none_of_not_mem : ∀ {buf : List Char}, '<' ∉ buf → findTag buf = none := by
  intro buf
  induction buf with
  | nil => intro _; rfl
  | cons c cs ih =>
    intro h
    simp only [List.mem_cons, not_or] at h
    obtain ⟨h1, h2⟩ := h
    have hc : c ≠ '<' := fun e => h1 e.symm
    simp [findTag, matchTagAt_none_of_ne cs hc, ih h2]

theorem extractTags_of_findTag_none {buf : List Char} (a : Option Region)
    (h : findTag buf = none) : extractTags buf a = ([], buf, a) := by
  cases buf with
  | nil => rfl
  | cons c cs =>
    show extractTagsF (cs.length + 1) (c :: cs) a = _
    unfold extractTagsF
    rw [h]

theorem dropWhile_ne_eq_nil : ∀ {buf : List Char}, '<' ∉ buf →
    buf.dropWhile (fun c => c != '<') = [] := by
  intro buf
  induction buf with
  | nil => intro _; rfl
  | cons c cs ih =>
    intro h
    simp only [List.mem_cons, not_or] at h
    obtain ⟨h1, h2⟩ := h
    have hc : (c != '<') = true := by
      simp [bne_iff_ne]
      exact fun e => h1 e.symm
    rw [List.dropWhile_cons, if_pos hc]
    exact ih h2

theorem safeFlush_of_not_mem {buf : List Char} (a : Option Region) (h : '<' ∉ buf) :
    safeFlush buf a = ((if buf = [] then [] else [(buf, a)]), []) := by
  unfold safeFlush
  by_cases hbe : buf = []
  · simp [hbe]
  · rw [if_neg hbe, if_neg hbe, dropWhile_ne_eq_nil h]

theorem feed_of_not_mem {chunk : List Char} (a : Option Region) (h : '<' ∉ chunk) :
    feed ⟨[], a⟩ chunk = (⟨[], a⟩, if chunk = [] then [] else [(chunk, a)]) := by
  have hft : findTag chunk = none := findTag_none_of_not_mem h
  show ((⟨(safeFlush (extractTags ((⟨[], a⟩ : ScanState).buf ++ chunk) a).2.1
          (extractTags ((⟨[], a⟩ : ScanState).buf ++ chunk) a).2.2).2,
        (extractTags ((⟨[], a⟩ : ScanState).buf ++ chunk) a).2.2⟩ : ScanState),
      (extractTags ((⟨[], a⟩ : ScanState).buf ++ chunk) a).1 ++
        (safeFlush (extractTags ((⟨[], a⟩ : ScanState).buf ++ chunk) a).2.1
          (extractTags ((⟨[], a⟩ : ScanState).buf ++ chunk) a).2.2).1) =
      (⟨[], a⟩, if chunk = [] then [] else [(chunk, a)])
  have hb : (⟨[], a⟩ : ScanState).buf ++ chunk = chunk := rfl
  rw [hb, extractTags_of_findTag_none a hft, safeFlush_of_not_mem a h]
  rfl

theorem feedAll_of_not_mem (a : Option Region) :
    ∀ (chunks : List (List Char)), '<' ∉ chunks.flatten →
      (feedAll ⟨[], a⟩ chunks).1 = ⟨[], a⟩ ∧
      charClasses (feedAll ⟨[], a⟩ chunks).2 = chunks.flatten.map (fun c => (c, a)) := by
  intro chunks
  induction chunks with
  | nil => intro _; exact ⟨rfl, rfl⟩
  | cons c cs ih =>
    intro h
    simp only [List.flatten_cons, List.mem_append, not_or] at h
    obtain ⟨hc, hcs⟩ := h
    show (feedAll (feed ⟨[], a⟩ c).1 cs).1 = _ ∧
      charClasses ((feed ⟨[], a⟩ c).2 ++ (feedAll (feed ⟨[], a⟩ c).1 cs).2) = _
    rw [feed_of_not_mem a hc]
    obtain ⟨ih1, ih2⟩ := ih hcs
    refine ⟨ih1, ?_⟩
    rw [charClasses_append, ih2, List.flatten_cons, List.map_append]
    cases c with
    | nil => simp [charClasses]
    | cons y ys => simp [charClasses]

/-- C1 (amended): chunk invariance holds for marker-free text — when the
input contains no `<` at all, every way of splitting it into chunks yields
the same character-by-character (segment, region) classification as one
single feed, and the same final scanner state.  (The unrestricted claim is
refuted by `tagStreamer_chunk_invariance_counterexample`: chunk boundaries
can change both what is emitted and the region assigned, because a `<`
followed by a non-tag-start character makes `feed` flush the entire buffer
— later `<`s included — and a trailing lone `<` is flushed rather than
held.) -/
theorem tagStreamer_chunk_invariance_no_marker (a : Option Region)
    (chunks : List (List Char)) (h : '<' ∉ chunks.flatten) :
    charClasses (feedAll ⟨[], a⟩ chunks).2 = charClasses (feed ⟨[], a⟩ chunks.flatten).2 ∧
    (feedAll ⟨[], a⟩ chunks).1 = (feed ⟨[], a⟩ chunks.flatten).1 := by
  obtain ⟨h1, h2⟩ := feedAll_of_not_mem a chunks h
  rw [feed_of_not_mem a h]
  refine ⟨?_, h1⟩
  rw [h2]
  cases hf : chunks.flatten with
  | nil => rfl
  | cons y ys => simp [charClasses]

/-- Witness: the amended C1 theorem applied to the concrete splitting
`["ab", "c"]` of `"abc"`. -/
theorem tagStreamer_chunk_invariance_no_marker_witness :
    charClasses (feedAll ⟨[], (none : Option Region)⟩ [("ab".toList), ("c".toList)]).2 =
      charClasses (feed ⟨[], (none : Option Region)⟩
        ([("ab".toList), ("c".toList)] : List (List Char)).flatten).2 :=
  (tagStreamer_chunk_invariance_no_marker none [("ab".toList), ("c".toList)] (by decide)).1

/-- C1 counterexample: splitting `"<python>x"` as `"<"` then `"python>x"`
changes the classifications — the single feed recognizes the tag and
classifies `x` as code, while the chunked feed flushes the lone `<`
immediately, never recognizes the tag, and classifies every character
(including `x`) as plain text. -/
theorem tagStreamer_chunk_invariance_counterexample :
    ("<".toList) ++ ("python>x".toList) = ("<python>x".toList) ∧
    charClasses (feedAll ⟨[], none⟩ [("<".toList), ("python>x".toList)]).2 ≠
      charClasses (feed ⟨[], none⟩ ("<python>x".toList)).2 := by
  constructor
  · rfl
  · decide

theorem feed_eq_safeFlush (st : ScanState) (chunk : List Char)
    (h : findTag (st.buf ++ chunk) = none) :
    feed st chunk = (⟨(safeFlush (st.buf ++ chunk) st.active).2, st.active⟩,
      (safeFlush (st.buf ++ chunk) st.active).1) := by
  show ((⟨(safeFlush (extractTags (st.buf ++ chunk) st.active).2.1
          (extractTags (st.buf ++ chunk) st.active).2.2).2,
        (extractTags (st.buf ++ chunk) st.active).2.2⟩ : ScanState),
      (extractTags (st.buf ++ chunk) st.active).1 ++
        (safeFlush (extractTags (st.buf ++ chunk) st.active).2.1
          (extractTags (st.buf ++ chunk) st.active).2.2).1) =
      (⟨(safeFlush (st.buf ++ chunk) st.active).2, st.active⟩,
        (safeFlush (st.buf ++ chunk) st.active).1)
  rw [extractTags_of_findTag_none st.active h]
  rfl

theorem safeFlush_drop_single {b : List Char} (a : Option Region) {x : Char}
    (hdw : b.dropWhile (fun c => c != '<') = x :: []) :
    safeFlush b a = ([(b, a)], []) := by
  have hbne : b ≠ [] := by
    intro he
    subst he
    simp at hdw
  unfold safeFlush
  rw [if_neg hbne]
  split
  · rfl
  · rename_i head tail heq
    rw [hdw] at heq
    injection heq with h1 h2
    subst h2
    rfl

theorem safeFlush_drop_cons {b : List Char} (a : Option Region) {x d : Char} {t2 : List Char}
    (hdw : b.dropWhile (fun c => c != '<') = x :: d :: t2) :
    safeFlush b a =
      (if tagStartChar d then
        ((if b.takeWhile (fun c => c != '<') = [] then []
          else [(b.takeWhile (fun c => c != '<'), a)]), x :: d :: t2)
      else ([(b, a)], [])) := by
  have hbne : b ≠ [] := by
    intro he
    subst he
    simp at hdw
  unfold safeFlush
  rw [if_neg hbne]
  split
  · rename_i heq
    rw [hdw] at heq
    cases heq
  · rename_i head tail heq
    rw [hdw] at heq
    injection heq with h1 h2
    subst h1
    subst h2
    rw [hdw]

/-- C4 (amended): the safe-flush holdback rule the code actually implements.
After all complete tags are extracted (`findTag` returns `none` on the
buffer), `feed` behaves as follows: with no `<` in the buffer, the whole
buffer is flushed as current-region text; when the first `<` is the last
character, or is followed by a character that cannot begin a tag name, the
ENTIRE buffer — the `<`, the offending character and everything after them,
later `<`s included — is flushed and the pending buffer becomes empty
(the claim instead said only the text before the `<` is flushed and the `<`
is kept buffered; `safe_flush_holdback_counterexample` refutes that); and
when the `<` is followed by `/` or a letter, everything from the `<` onward
is kept buffered and only the text before it is flushed, if nonempty. -/
theorem safe_flush_rule (st : ScanState) (chunk : List Char)
    (hft : findTag (st.buf ++ chunk) = none) :
    ('<' ∉ st.buf ++ chunk →
      feed st chunk = (⟨[], st.active⟩,
        if st.buf ++ chunk = [] then [] else [(st.buf ++ chunk, st.active)])) ∧
    (∀ tail, (st.buf ++ chunk).dropWhile (fun c => c != '<') = '<' :: tail →
      ((tail = [] →
          feed st chunk = (⟨[], st.active⟩, [(st.buf ++ chunk, st.active)])) ∧
       (∀ d t2, tail = d :: t2 → tagStartChar d = false →
          feed st chunk = (⟨[], st.active⟩, [(st.buf ++ chunk, st.active)])) ∧
       (∀ d t2, tail = d :: t2 → tagStartChar d = true →
          feed st chunk = (⟨'<' :: tail, st.active⟩,
            if (st.buf ++ chunk).takeWhile (fun c => c != '<') = [] then []
            else [((st.buf ++ chunk).takeWhile (fun c => c != '<'), st.active)])))) := by
  rw [feed_eq_safeFlush st chunk hft]
  constructor
  · intro hmem
    rw [safeFlush_of_not_mem st.active hmem]
  · intro tail hdw
    refine ⟨?_, ?_, ?_⟩
    · intro htail
      subst htail
      rw [safeFlush_drop_single st.active hdw]
    · intro d t2 htail hts
      subst htail
      rw [safeFlush_drop_cons st.active hdw]
      simp [hts]
    · intro d t2 htail hts
      subst htail
      rw [safeFlush_drop_cons st.active hdw]
      simp [hts]

/-- Witness: the middle case of the amended C4 theorem at the concrete
buffer `"a<1"` — the `<` is followed by `1`, which cannot begin a tag name,
so the whole buffer is flushed and nothing remains buffered. -/
theorem safe_flush_rule_witness :
    feed (⟨[], none⟩ : ScanState) ("a<1".toList) =
      (⟨[], none⟩, [(([] : List Char) ++ ("a<1".toList), none)]) :=
  ((safe_flush_rule (⟨[], none⟩ : ScanState) ("a<1".toList) (by decide)).2
    ('1' :: []) (by decide)).2.1 '1' [] rfl (by decide)

/-- C4 counterexample: on the buffer `"a<1"` the claim says text is flushed
up to but excluding the `1` and the `<` marker character is kept buffered;
the code instead flushes the entire buffer `"a<1"` as one segment and
leaves the pending buffer empty. -/
theorem safe_flush_holdback_counterexample :
    (feed (⟨[], none⟩ : ScanState) ("a<1".toList)).1.buf = [] ∧
    (feed (⟨[], none⟩ : ScanState) ("a<1".toList)).2 = [(("a<1".toList), none)] := by
  constructor
  · decide
  · decide

/-! ## Orchestrator lemmas -/

theorem applySWC_true {ts : TS} (ss : SS) (h : ts.startWithCode = true) :
    applySWC ts ss = (⟨ts.prefx, ts.isThinking, false⟩,
      ⟨pyOpenNl, pyOpenNl, ss.maybeSend⟩, [Ev.reasoning pyOpenNl]) := by
  unfold applySWC
  rw [h]
  rfl

theorem applySWC_false {ts : TS} (ss : SS) (h : ts.startWithCode = false) :
    applySWC ts ss = (ts, ss, []) := by
  unfold applySWC
  rw [h]
  rfl

theorem processChunk_noSWC (exec : List Char → List Char) (ts : TS) (ss : SS)
    (ch : Option (List Char)) (h : ts.startWithCode = false) :
    processChunk exec ts ss ch = processCore exec ts ss ch := by
  unfold processChunk
  rw [applySWC_false ss h]
  rfl

theorem guardedSend_send {sent pfx t : List Char}
    (h1 : sent.isPrefixOf t = true) (h2 : t.drop sent.length ≠ []) :
    guardedSend sent pfx t =
      (sent ++ t.drop sent.length, pfx ++ t.drop sent.length,
        [Ev.reasoning (t.drop sent.length)]) := by
  unfold guardedSend
  rw [if_pos h1, if_neg h2]

theorem processCore_think (exec : List Char → List Char) (ts : TS) (ss : SS)
    (text : List Char) (hth : ts.isThinking = true) (hne : text ≠ []) :
    processCore exec ts ss (some text) =
      (if hasSub pyClose (ss.buffer ++ text) then branchA exec ts ss (ss.buffer ++ text)
       else
         match thinkHoldLen (ss.buffer ++ text) with
         | some i => branchHold ts ss (ss.buffer ++ text) text i
         | none =>
           if hasSub thinkClose (ss.buffer ++ text) then branchThink ts ss (ss.buffer ++ text)
           else branchElse ts ss (ss.buffer ++ text) text) := by
  unfold processCore
  rw [hth]
  simp only [Bool.true_eq_false, if_false, if_neg hne]

/-- C2 is violated by the code (a slip against its own `Only send what
hasn't been sent yet` comments): in a thinking sub-request, a delta `"x<"`
triggers the partial-`"</think"` holdback, which yields the `"x"` but then
re-queues the ENTIRE delta `"x<"` (including the already-sent `"x"`) into
`maybe_send`; when the next delta `"y"` arrives, the flush re-emits `"x"`.
The client receives `"x"`, `"x<"`, `"y"` — the character `x` twice — for
upstream text `"x<y"`, and `prefix` is likewise corrupted to `"xx<y"`. -/
theorem orchestrator_double_forward_on_held_text :
    (runSub exec0 ⟨[], true, false⟩ ⟨[], [], []⟩
        [some ("x<".toList), some ("y".toList)]).2.2.1 =
      [Ev.reasoning ("x".toList), Ev.reasoning ("x<".toList), Ev.reasoning ("y".toList)] ∧
    evJoin (runSub exec0 ⟨[], true, false⟩ ⟨[], [], []⟩
        [some ("x<".toList), some ("y".toList)]).2.2.1 = ("xx<y".toList) ∧
    ("x<".toList) ++ ("y".toList) = ("x<y".toList) ∧
    (evJoin (runSub exec0 ⟨[], true, false⟩ ⟨[], [], []⟩
        [some ("x<".toList), some ("y".toList)]).2.2.1).count 'x' = 2 ∧
    ("x<y".toList).count 'x' = 1 ∧
    (runSub exec0 ⟨[], true, false⟩ ⟨[], [], []⟩
        [some ("x<".toList), some ("y".toList)]).1.prefx = ("xx<y".toList) := by
  refine ⟨?_, ?_, ?_, ?_, ?_, ?_⟩ <;> rfl

theorem branchA_head (exec : List Char → List Char) (ts : TS) (ss : SS) (buffer : List Char)
    (h1 : ss.alreadySent.isPrefixOf (splitBeforeFirst pyClose buffer ++ pyClose) = true)
    (h2 : (splitBeforeFirst pyClose buffer ++ pyClose).drop ss.alreadySent.length ≠ []) :
    (branchA exec ts ss buffer).2.2.1.head? =
      some (Ev.reasoning
        ((splitBeforeFirst pyClose buffer ++ pyClose).drop ss.alreadySent.length)) := by
  simp only [branchA]
  rw [guardedSend_send h1 h2]
  cases lastStart pyOpen buffer with
  | none => rfl
  | some i =>
    cases lastStart pyClose buffer with
    | none => rfl
    | some j =>
      by_cases hj : j < i
      · simp only [if_pos hj]
        rfl
      · simp only [if_neg hj]
        rfl

/-- C3 (amended): while a code region is open the orchestrator does NOT
withhold the enclosed text — in a thinking sub-request, a delta whose
grown buffer contains no `"</python>"`, ends in no partial `"</think"`,
and contains no `"</think>"` is forwarded to the client immediately
(preceded by any held-back text), even when the buffer holds an open
`<python>` tag; what the code does enforce is that once `"</python>"`
appears, the emission is truncated at the closing marker — the first
yielded delta extends `already_sent` exactly up to text ending in
`"</python>"`, and text beyond the marker is not included.  (The claim's
accumulate-and-withhold reading is refuted by
`code_region_eager_forward_counterexample`.) -/
theorem code_region_forwarding_policy (exec : List Char → List Char) (ts : TS) (ss : SS)
    (text : List Char) (hsw : ts.startWithCode = false) (hth : ts.isThinking = true)
    (hne : text ≠ []) :
    (hasSub pyClose (ss.buffer ++ text) = false →
      thinkHoldLen (ss.buffer ++ text) = none →
      hasSub thinkClose (ss.buffer ++ text) = false →
      (processChunk exec ts ss (some text)).2.2.1 =
        (if ss.maybeSend = [] then [] else [Ev.reasoning ss.maybeSend]) ++
          [Ev.reasoning text]) ∧
    (hasSub pyClose (ss.buffer ++ text) = true →
      ss.alreadySent.isPrefixOf
        (splitBeforeFirst pyClose (ss.buffer ++ text) ++ pyClose) = true →
      (splitBeforeFirst pyClose (ss.buffer ++ text) ++ pyClose).drop
        ss.alreadySent.length ≠ [] →
      ((processChunk exec ts ss (some text)).2.2.1.head? =
        some (Ev.reasoning ((splitBeforeFirst pyClose (ss.buffer ++ text) ++ pyClose).drop
          ss.alreadySent.length)) ∧
       ss.alreadySent ++ (splitBeforeFirst pyClose (ss.buffer ++ text) ++ pyClose).drop
          ss.alreadySent.length = splitBeforeFirst pyClose (ss.buffer ++ text) ++ pyClose ∧
       pyClose <:+ splitBeforeFirst pyClose (ss.buffer ++ text) ++ pyClose)) := by
  rw [processChunk_noSWC exec ts ss (some text) hsw, processCore_think exec ts ss text hth hne]
  constructor
  · intro hpy hhold hthink
    rw [if_neg (by simp [hpy]), hhold, if_neg (by simp [hthink])]
    rfl
  · intro hpy h1 h2
    rw [if_pos hpy]
    refine ⟨branchA_head exec ts ss (ss.buffer ++ text) h1 h2, ?_, List.suffix_append _ _⟩
    have hp : ss.alreadySent <+: (splitBeforeFirst pyClose (ss.buffer ++ text) ++ pyClose) :=
      List.isPrefixOf_iff_prefix.mp h1
    have ht := List.prefix_iff_eq_take.mp hp
    nth_rewrite 1 [ht]
    exact List.take_append_drop _ _

/-- Witness: both parts of the amended C3 theorem at concrete states — a
delta `"pr()"` arriving while the code region opened by `"<python>\n"` is
still open is forwarded immediately, and a delta completing the block with
`"</python>z"` yields exactly the text up to and including the marker. -/
theorem code_region_forwarding_policy_witness :
    (processChunk exec0 ⟨[], true, false⟩ ⟨("<python>\n".toList), ("<python>\n".toList), []⟩
        (some ("pr()".toList))).2.2.1 = [Ev.reasoning ("pr()".toList)] ∧
    (processChunk exec0 ⟨[], true, false⟩ ⟨("<python>\nx".toList), ("<python>\n".toList), []⟩
        (some ("</python>z".toList))).2.2.1.head? =
      some (Ev.reasoning ((splitBeforeFirst pyClose (("<python>\nx".toList) ++
        ("</python>z".toList)) ++ pyClose).drop (("<python>\n".toList) : List Char).length)) := by
  constructor
  · exact (code_region_forwarding_policy exec0 ⟨[], true, false⟩
      ⟨("<python>\n".toList), ("<python>\n".toList), []⟩ ("pr()".toList)
      rfl rfl (by decide)).1 (by decide) (by decide) (by decide)
  · exact ((code_region_forwarding_policy exec0 ⟨[], true, false⟩
      ⟨("<python>\nx".toList), ("<python>\n".toList), []⟩ ("</python>z".toList)
      rfl rfl (by decide)).2 (by decide) (by decide) (by decide)).1

/-- C3 counterexample: in the first sub-request the synthetic `"<python>\n"`
opens a code region; the next upstream delta `"print(1)\n"` lies inside
that still-open region, yet the orchestrator forwards it to the client at
once — the emitted events are the synthetic marker followed immediately by
the code text, although `"</python>"` never occurred anywhere in the
stream. -/
theorem code_region_eager_forward_counterexample :
    (runSub exec0 ⟨[], true, true⟩ ⟨[], [], []⟩ [some ("print(1)\n".toList)]).2.2.1 =
      [Ev.reasoning pyOpenNl, Ev.reasoning ("print(1)\n".toList)] ∧
    hasSub pyClose (pyOpenNl ++ ("print(1)\n".toList)) = false := by
  constructor
  · rfl
  · rfl

theorem branchA_flag (exec : List Char → List Char) (ts : TS) (ss : SS) (buffer : List Char) :
    (branchA exec ts ss buffer).1.startWithCode = ts.startWithCode := by
  simp only [branchA]
  split
  · split
    · rfl
    · rfl
  · rfl

theorem processCore_flag (exec : List Char → List Char) (ts : TS) (ss : SS)
    (ch : Option (List Char)) :
    (processCore exec ts ss ch).1.startWithCode = ts.startWithCode := by
  by_cases hth : ts.isThinking = false
  · unfold processCore
    rw [if_pos hth]
  · rcases ch with _ | text
    · unfold processCore
      rw [if_neg hth]
    · by_cases hne : text = []
      · subst hne
        unfold processCore
        rw [if_neg hth]
        rfl
      · have hth' : ts.isThinking = true := by
          simp only [Bool.not_eq_false] at hth
          exact hth
        rw [processCore_think exec ts ss text hth' hne]
        by_cases hpy : hasSub pyClose (ss.buffer ++ text) = true
        · rw [if_pos hpy]
          exact branchA_flag exec ts ss (ss.buffer ++ text)
        · rw [if_neg hpy]
          cases hhl : thinkHoldLen (ss.buffer ++ text) with
          | some i => rfl
          | none =>
            show (if hasSub thinkClose (ss.buffer ++ text) = true then
                branchThink ts ss (ss.buffer ++ text)
              else branchElse ts ss (ss.buffer ++ text) text).1.startWithCode =
              ts.startWithCode
            by_cases htc : hasSub thinkClose (ss.buffer ++ text) = true
            · rw [if_pos htc]
              rfl
            · rw [if_neg htc]
              rfl

theorem processChunk_flag (exec : List Char → List Char) (ts : TS) (ss : SS)
    (ch : Option (List Char)) :
    (processChunk exec ts ss ch).1.startWithCode = false := by
  have h0 : (applySWC ts ss).1.startWithCode = false := by
    unfold applySWC
    split
    · rfl
    · rename_i h
      simp only [Bool.not_eq_true] at h
      exact h
  show (processCore exec (applySWC ts ss).1 (applySWC ts ss).2.1 ch).1.startWithCode = false
  rw [processCore_flag]
  exact h0

theorem processChunk_cons_swc (exec : List Char → List Char) (ts : TS) (ss : SS)
    (ch : Option (List Char)) (h : ts.startWithCode = true) :
    ∃ evs, (processChunk exec ts ss ch).2.2.1 = Ev.reasoning pyOpenNl :: evs := by
  unfold processChunk
  rw [applySWC_true ss h]
  exact ⟨_, rfl⟩

theorem runSub_cons_swc (exec : List Char → List Char) (ts : TS) (ss : SS)
    (ch : Option (List Char)) (rest : List (Option (List Char)))
    (h : ts.startWithCode = true) :
    ∃ evs, (runSub exec ts ss (ch :: rest)).2.2.1 = Ev.reasoning pyOpenNl :: evs := by
  obtain ⟨evs, hevs⟩ := processChunk_cons_swc exec ts ss ch h
  simp only [runSub]
  cases hctl : (processChunk exec ts ss ch).2.2.2 with
  | next =>
    rw [hevs]
    exact ⟨_, rfl⟩
  | restart =>
    rw [hevs]
    exact ⟨evs, rfl⟩

theorem runTurn_head_swc (exec : List Char → List Char) (ts : TS)
    (ch : Option (List Char)) (rest : List (Option (List Char)))
    (e? : Option (List Char)) (scripts : List SubScript) (h : ts.startWithCode = true) :
    (runTurn exec ts ((ch :: rest, e?) :: scripts)).head? =
      some (Ev.reasoning pyOpenNl) := by
  obtain ⟨evs, hevs⟩ := runSub_cons_swc exec ts ⟨[], [], []⟩ ch rest h
  simp only [runTurn]
  by_cases hr : (runSub exec ts ⟨[], [], []⟩ (ch :: rest)).2.2.2 = true
  · rw [if_pos hr, hevs]
    rfl
  · rw [if_neg hr]
    rcases e? with _ | m
    · rw [hevs]
      rfl
    · rw [hevs]
      rfl

/-- C10: the synthetic code-open delta.  When the one-shot `start_with_code`
flag is set, receipt of a chunk first emits a single synthetic reasoning
delta containing exactly `"<python>\n"`, records that text as both `buffer`
and `already_sent` (so the later dedup never re-sends it), and clears the
flag; when the flag is clear the injection does nothing; after processing
any chunk the flag is always clear, so the injection can happen at most
once per turn; and on a flagged turn the first event of the sub-request —
and of the whole turn — is that synthetic delta, before any
upstream-generated text. -/
theorem synthetic_code_open_first (ts : TS) (ss : SS) :
    (ts.startWithCode = true →
      applySWC ts ss = (⟨ts.prefx, ts.isThinking, false⟩,
        ⟨pyOpenNl, pyOpenNl, ss.maybeSend⟩, [Ev.reasoning pyOpenNl])) ∧
    (ts.startWithCode = false → applySWC ts ss = (ts, ss, [])) ∧
    (∀ (exec : List Char → List Char) (ch : Option (List Char)),
      (processChunk exec ts ss ch).1.startWithCode = false) ∧
    (∀ (exec : List Char → List Char) (ch : Option (List Char))
        (rest : List (Option (List Char))), ts.startWithCode = true →
      ((runSub exec ts ss (ch :: rest)).2.2.1).head? = some (Ev.reasoning pyOpenNl)) ∧
    (∀ (exec : List Char → List Char) (ch : Option (List Char))
        (rest : List (Option (List Char))) (e? : Option (List Char))
        (scripts : List SubScript), ts.startWithCode = true →
      (runTurn exec ts ((ch :: rest, e?) :: scripts)).head? =
        some (Ev.reasoning pyOpenNl)) := by
  refine ⟨applySWC_true ss, applySWC_false ss, fun exec ch => processChunk_flag exec ts ss ch, ?_, ?_⟩
  · intro exec ch rest h
    obtain ⟨evs, hevs⟩ := runSub_cons_swc exec ts ss ch rest h
    rw [hevs]
    rfl
  · intro exec ch rest e? scripts h
    exact runTurn_head_swc exec ts ch rest e? scripts h

/-- Witness: the C10 theorem at a fresh turn state — the injection yields
the synthetic `"<python>\n"` delta and seeds the sub-request state with it,
and the first event of a turn whose upstream delivers a chunk is that
synthetic delta. -/
theorem synthetic_code_open_first_witness :
    applySWC ⟨[], true, true⟩ ⟨[], [], []⟩ =
      (⟨[], true, false⟩, ⟨pyOpenNl, pyOpenNl, []⟩, [Ev.reasoning pyOpenNl]) ∧
    (runTurn exec0 ⟨[], true, true⟩ [([some ("a".toList)], none)]).head? =
      some (Ev.reasoning pyOpenNl) := by
  constructor
  · exact (synthetic_code_open_first ⟨[], true, true⟩ ⟨[], [], []⟩).1 rfl
  · exact (synthetic_code_open_first ⟨[], true, true⟩ ⟨[], [], []⟩).2.2.2.2 exec0
      (some ("a".toList)) [] none [] rfl

theorem guardedSend_out (sent pfx t : List Char) :
    ∀ e ∈ (guardedSend sent pfx t).2.2, isOut e = true := by
  simp only [guardedSend]
  split
  · split
    · intro e he
      simp at he
    · intro e he
      simp at he
      subst he
      rfl
  · intro e he
    simp at he

theorem branchA_events (exec : List Char → List Char) (ts : TS) (ss : SS) (buffer : List Char) :
    (branchA exec ts ss buffer).2.2.1 =
      (guardedSend ss.alreadySent ts.prefx (splitBeforeFirst pyClose buffer ++ pyClose)).2.2 ∨
    ∃ fo, (branchA exec ts ss buffer).2.2.1 =
      (guardedSend ss.alreadySent ts.prefx (splitBeforeFirst pyClose buffer ++ pyClose)).2.2 ++
        [Ev.reasoning fo] := by
  simp only [branchA]
  split
  · split
    · exact Or.inl rfl
    · exact Or.inr ⟨_, rfl⟩
  · exact Or.inl rfl

theorem branchA_out (exec : List Char → List Char) (ts : TS) (ss : SS) (buffer : List Char) :
    ∀ e ∈ (branchA exec ts ss buffer).2.2.1, isOut e = true := by
  intro e he
  have hg := guardedSend_out ss.alreadySent ts.prefx (splitBeforeFirst pyClose buffer ++ pyClose)
  rcases branchA_events exec ts ss buffer with h | ⟨fo, h⟩
  · rw [h] at he
    exact hg e he
  · rw [h] at he
    rcases List.mem_append.mp he with h1 | h1
    · exact hg e h1
    · simp at h1
      subst h1
      rfl

theorem processCore_out (exec : List Char → List Char) (ts : TS) (ss : SS)
    (ch : Option (List Char)) :
    ∀ e ∈ (processCore exec ts ss ch).2.2.1, isOut e = true := by
  by_cases hth : ts.isThinking = false
  · unfold processCore
    rw [if_pos hth]
    intro e he
    simp at he
    subst he
    rfl
  · rcases ch with _ | text
    · unfold processCore
      rw [if_neg hth]
      intro e he
      simp at he
    · by_cases hne : text = []
      · subst hne
        unfold processCore
        rw [if_neg hth]
        intro e he
        simp at he
      · have hth' : ts.isThinking = true := by
          simp only [Bool.not_eq_false] at hth
          exact hth
        rw [processCore_think exec ts ss text hth' hne]
        by_cases hpy : hasSub pyClose (ss.buffer ++ text) = true
        · rw [if_pos hpy]
          exact branchA_out exec ts ss (ss.buffer ++ text)
        · rw [if_neg hpy]
          cases hhl : thinkHoldLen (ss.buffer ++ text) with
          | some i =>
            exact guardedSend_out ss.alreadySent ts.prefx
              ((ss.buffer ++ text).take ((ss.buffer ++ text).length - i))
          | none =>
            show ∀ e ∈ (if hasSub thinkClose (ss.buffer ++ text) = true then
                branchThink ts ss (ss.buffer ++ text)
              else branchElse ts ss (ss.buffer ++ text) text).2.2.1, isOut e = true
            by_cases htc : hasSub thinkClose (ss.buffer ++ text) = true
            · rw [if_pos htc]
              exact guardedSend_out ss.alreadySent ts.prefx
                (splitBeforeFirst thinkClose (ss.buffer ++ text))
            · rw [if_neg htc]
              intro e he
              show isOut e = true
              rcases List.mem_append.mp he with h1 | h1
              · rcases List.mem_ite_nil_left.mp h1 with ⟨-, h2⟩
                simp at h2
                subst h2
                rfl
              · simp at h1
                subst h1
                rfl

theorem applySWC_out (ts : TS) (ss : SS) :
    ∀ e ∈ (applySWC ts ss).2.2, isOut e = true := by
  unfold applySWC
  split
  · intro e he
    simp at he
    subst he
    rfl
  · intro e he
    simp at he

theorem processChunk_out (exec : List Char → List Char) (ts : TS) (ss : SS)
    (ch : Option (List Char)) :
    ∀ e ∈ (processChunk exec ts ss ch).2.2.1, isOut e = true := by
  intro e he
  have hs := applySWC_out ts ss
  have hc := processCore_out exec (applySWC ts ss).1 (applySWC ts ss).2.1 ch
  have hsplit : (processChunk exec ts ss ch).2.2.1 =
      (applySWC ts ss).2.2 ++
        (processCore exec (applySWC ts ss).1 (applySWC ts ss).2.1 ch).2.2.1 := rfl
  rw [hsplit] at he
  rcases List.mem_append.mp he with h1 | h1
  · exact hs e h1
  · exact hc e h1

theorem runSub_out (exec : List Char → List Char) :
    ∀ (chunks : List (Option (List Char))) (ts : TS) (ss : SS),
      ∀ e ∈ (runSub exec ts ss chunks).2.2.1, isOut e = true := by
  intro chunks
  induction chunks with
  | nil =>
    intro ts ss e he
    simp [runSub] at he
  | cons ch rest ih =>
    intro ts ss e he
    simp only [runSub] at he
    rcases hctl : (processChunk exec ts ss ch).2.2.2 with _ | _ <;> rw [hctl] at he
    · rcases List.mem_append.mp he with h1 | h1
      · exact processChunk_out exec ts ss ch e h1
      · exact ih (processChunk exec ts ss ch).1 (processChunk exec ts ss ch).2.1 e h1
    · exact processChunk_out exec ts ss ch e he

/-- C7: upstream failure termination.  When a sub-request's chunk stream
ends in an upstream error (and no restart was triggered first), the tool
loop forwards exactly one error delta followed by the terminal sentinel
and ends: the produced event sequence is the already-yielded forward
events (none of which is an error or sentinel event) followed by
`[err m, done]`, and it is identical for every continuation script — no
further upstream sub-request is issued, no restart, no retry. -/
theorem upstream_error_terminates (exec : List Char → List Char) (ts : TS)
    (chunks : List (Option (List Char))) (m : List Char) (rest : List SubScript)
    (h : (runSub exec ts ⟨[], [], []⟩ chunks).2.2.2 = false) :
    runTurn exec ts ((chunks, some m) :: rest) =
      (runSub exec ts ⟨[], [], []⟩ chunks).2.2.1 ++ [Ev.err m, Ev.done] ∧
    runTurn exec ts ((chunks, some m) :: rest) = runTurn exec ts [(chunks, some m)] ∧
    (∀ e ∈ (runSub exec ts ⟨[], [], []⟩ chunks).2.2.1, isOut e = true) := by
  have h1 : runTurn exec ts ((chunks, some m) :: rest) =
      (runSub exec ts ⟨[], [], []⟩ chunks).2.2.1 ++ [Ev.err m, Ev.done] := by
    simp only [runTurn]
    rw [if_neg (by rw [h]; exact Bool.false_ne_true)]
  have h2 : runTurn exec ts [(chunks, some m)] =
      (runSub exec ts ⟨[], [], []⟩ chunks).2.2.1 ++ [Ev.err m, Ev.done] := by
    simp only [runTurn]
    rw [if_neg (by rw [h]; exact Bool.false_ne_true)]
  exact ⟨h1, by rw [h1, h2], runSub_out exec chunks ts ⟨[], [], []⟩⟩

/-- Witness: the C7 theorem at a concrete turn — the upstream delivers one
delta `"hi"` and then fails with `"boom"` — so the client sees the
forwarded `"hi"`, one error delta, and the sentinel, with a pending second
sub-request script that is never consulted. -/
theorem upstream_error_terminates_witness :
    runTurn exec0 ⟨[], true, false⟩
        [([some ("hi".toList)], some ("boom".toList)), ([some ("zz".toList)], none)] =
      (runSub exec0 ⟨[], true, false⟩ ⟨[], [], []⟩ [some ("hi".toList)]).2.2.1 ++
        [Ev.err ("boom".toList), Ev.done] ∧
    runTurn exec0 ⟨[], true, false⟩
        [([some ("hi".toList)], some ("boom".toList)), ([some ("zz".toList)], none)] =
      runTurn exec0 ⟨[], true, false⟩ [([some ("hi".toList)], some ("boom".toList))] := by
  have h := upstream_error_terminates exec0 ⟨[], true, false⟩ [some ("hi".toList)]
    ("boom".toList) [([some ("zz".toList)], none)] (by rfl)
  exact ⟨h.1, h.2.1⟩

/-! ## Execution adapter lemmas -/

theorem rstrip_append {t : List Char} (p : List Char) (h : rstrip t ≠ []) :
    rstrip (p ++ t) = p ++ rstrip t := by
  unfold rstrip at *
  have hne : (t.reverse.dropWhile pyWs).isEmpty = false := by
    cases hd : t.reverse.dropWhile pyWs with
    | nil =>
      exfalso
      apply h
      rw [hd]
      rfl
    | cons x xs => rfl
  rw [List.reverse_append, List.dropWhile_append, hne]
  simp only [Bool.false_eq_true, if_false]
  rw [List.reverse_append, List.reverse_reverse]

theorem rstrip_eq_nil_of_ws {s : List Char} (h : ∀ c ∈ s, pyWs c = true) :
    rstrip s = [] := by
  unfold rstrip
  have : s.reverse.dropWhile pyWs = [] :=
    List.dropWhile_eq_nil_iff.mpr (fun a ha => h a (List.mem_reverse.mp ha))
  rw [this]
  rfl

/-- C6: the Execution Adapter absorbs faults.  When the evaluated source
raises a runtime fault after printing `p`, with formatted trace `t` (any
trace that is non-empty after trailing-whitespace stripping), `run_python`
returns ordinary text: the printed output with the failure trace appended
(then rstripped), which is non-empty and ends in the stripped trace — in
particular it never propagates an exception, since every interpreter
outcome is mapped to a text result.  Moreover a fault does not terminate
the turn: a sub-request that triggered execution ends in a restart, and the
tool loop then continues with the next upstream sub-request. -/
theorem run_python_absorbs_faults (p t : List Char) (h : rstrip t ≠ []) :
    run_python (PyRun.evalRaised p t) = p ++ rstrip t ∧
    run_python (PyRun.evalRaised p t) ≠ [] ∧
    rstrip t <:+ run_python (PyRun.evalRaised p t) ∧
    (∀ (ts : TS) (chunks : List (Option (List Char))) (e? : Option (List Char))
        (rest : List SubScript),
      (runSub (fun _ => run_python (PyRun.evalRaised p t)) ts ⟨[], [], []⟩ chunks).2.2.2 = true →
      runTurn (fun _ => run_python (PyRun.evalRaised p t)) ts ((chunks, e?) :: rest) =
        (runSub (fun _ => run_python (PyRun.evalRaised p t)) ts ⟨[], [], []⟩ chunks).2.2.1 ++
          runTurn (fun _ => run_python (PyRun.evalRaised p t))
            (runSub (fun _ => run_python (PyRun.evalRaised p t)) ts ⟨[], [], []⟩ chunks).1
            rest) := by
  have hc : captured (PyRun.evalRaised p t) = p ++ t := rfl
  have hr : rstrip (captured (PyRun.evalRaised p t)) = p ++ rstrip t := by
    rw [hc]
    exact rstrip_append p h
  have hne : p ++ rstrip t ≠ [] := by
    cases hrt : rstrip t with
    | nil => exact absurd hrt h
    | cons x xs => simp
  have hrun : run_python (PyRun.evalRaised p t) = p ++ rstrip t := by
    unfold run_python
    rw [hr, if_neg hne]
  refine ⟨hrun, by rw [hrun]; exact hne, by rw [hrun]; exact List.suffix_append p (rstrip t), ?_⟩
  intro ts chunks e? rest hrestart
  simp only [runTurn]
  rw [if_pos hrestart]

/-- Witness: the C6 theorem at the modelled `1/0` outcome — the adapter
returns the non-empty trace text — together with the turn continuing after
the execution of a `1/0` block: the sub-request restarts and the loop
consumes the next scripted sub-request. -/
theorem run_python_absorbs_faults_witness :
    run_python divZeroRun = [] ++ rstrip zdTrace ∧
    run_python divZeroRun ≠ [] ∧
    runTurn execDiv ⟨[], true, true⟩ [([some ("1/0\n</python>".toList)], none), ([], none)] =
      (runSub execDiv ⟨[], true, true⟩ ⟨[], [], []⟩ [some ("1/0\n</python>".toList)]).2.2.1 ++
        runTurn execDiv
          (runSub execDiv ⟨[], true, true⟩ ⟨[], [], []⟩ [some ("1/0\n</python>".toList)]).1
          [([], none)] := by
  have h := run_python_absorbs_faults [] zdTrace (by decide)
  exact ⟨h.1, h.2.1, h.2.2.2 ⟨[], true, true⟩ [some ("1/0\n</python>".toList)] none
    [([], none)] (by rfl)⟩

/-- C8: the empty-output placeholder.  `run_python` returns the fixed
placeholder `"(no output)"` exactly when the captured output is empty
after trailing-whitespace stripping — in particular whenever the capture
buffer holds only whitespace characters — and whenever the stripped
capture is non-empty, that text (not the placeholder branch) is returned. -/
theorem run_python_placeholder (r : PyRun) :
    (rstrip (captured r) = [] → run_python r = noOutput) ∧
    (rstrip (captured r) ≠ [] → run_python r = rstrip (captured r)) ∧
    ((∀ c ∈ captured r, pyWs c = true) → run_python r = noOutput) := by
  refine ⟨?_, ?_, ?_⟩
  · intro h
    unfold run_python
    rw [if_pos h]
  · intro h
    unfold run_python
    rw [if_neg h]
  · intro h
    unfold run_python
    rw [if_pos (rstrip_eq_nil_of_ws h)]

/-- Witness: the C8 theorem at concrete captures — a whitespace-only
capture yields the placeholder, a real capture is returned rstripped. -/
theorem run_python_placeholder_witness :
    run_python (PyRun.evalOk (" \n ".toList) none) = noOutput ∧
    run_python (PyRun.evalOk ("hi  ".toList) none) = rstrip (captured (PyRun.evalOk ("hi  ".toList) none)) :=
  ⟨(run_python_placeholder (PyRun.evalOk (" \n ".toList) none)).2.2 (by decide),
   (run_python_placeholder (PyRun.evalOk ("hi  ".toList) none)).2.1 (by decide)⟩

/-! ## Request validation lemmas -/

theorem chatAfterMessages_not_list (body : JVal) (msgs? : Option JVal)
    (h : (match msgs? with | some (JVal.jarr _) => true | _ => false) = false) :
    chatAfterMessages body msgs? =
      Except.error ⟨400, ("messages field must be a list".toList)⟩ := by
  rcases msgs? with _ | v
  · rfl
  · rcases v with _ | b | n | s | xs | kvs <;> first | rfl | simp at h

/-- C9: malformed-request rejection.  For every inbound request whose body
is not valid JSON (`body? = none`) or whose `messages` field is missing or
not a list, `chat_completions` produces an `Except.error` — it never
reaches the `Except.ok` value that carries the assembled upstream request,
so no upstream call is made and no partial output is emitted. -/
theorem malformed_request_rejected (body? : Option JVal)
    (h : body? = none ∨ ∀ b, body? = some b → messagesFieldIsList b = false) :
    ∃ e, chat_completions body? = Except.error e := by
  rcases body? with _ | body
  · exact ⟨⟨400, ("Invalid JSON".toList)⟩, rfl⟩
  · have hb : messagesFieldIsList body = false := by
      rcases h with h | h
      · simp at h
      · exact h body rfl
    rcases body with _ | b | n | s | xs | kvs
    · exact ⟨⟨500, ("AttributeError".toList)⟩, rfl⟩
    · exact ⟨⟨500, ("AttributeError".toList)⟩, rfl⟩
    · exact ⟨⟨500, ("AttributeError".toList)⟩, rfl⟩
    · exact ⟨⟨500, ("AttributeError".toList)⟩, rfl⟩
    · exact ⟨⟨500, ("AttributeError".toList)⟩, rfl⟩
    · refine ⟨⟨400, ("messages field must be a list".toList)⟩, ?_⟩
      have hb' : (match jlookup kvs ("messages".toList) with
          | some (JVal.jarr _) => true | _ => false) = false := hb
      show chatAfterMessages (JVal.jobj kvs) (jlookup kvs ("messages".toList)) =
        Except.error ⟨400, ("messages field must be a list".toList)⟩
      exact chatAfterMessages_not_list (JVal.jobj kvs) (jlookup kvs ("messages".toList)) hb'

/-- Witness: the C9 theorem at the two concrete malformed requests — an
unparseable body, and a JSON object with no `messages` field. -/
theorem malformed_request_rejected_witness :
    (∃ e, chat_completions none = Except.error e) ∧
    (∃ e, chat_completions (some (JVal.jobj [])) = Except.error e) := by
  constructor
  · exact malformed_request_rejected none (Or.inl rfl)
  · refine malformed_request_rejected (some (JVal.jobj [])) (Or.inr ?_)
    intro b hb
    cases hb
    rfl
